import Mathlib

/-
  Verification development for the DigitalDairy-PDF repository.

  Shallow embedding, in Lean 4, of the calendar / holiday / page-graph /
  text-wrapping / quote-rotation logic of `src/enhanced_diary.py` and of the
  password-acquisition logic of `src/PasswordManager.py`, together with
  theorems settling the specification's claims about that code.

  Modelling conventions:
  * Python `datetime.date` values are modelled as `(year, month, day)` triples
    of naturals; `date.weekday()` (Monday = 0 .. Sunday = 6) is modelled via
    the proleptic-Gregorian ordinal, exactly as CPython computes it.
  * Python dicts keyed by dates are modelled as association lists in insertion
    order (the verified distinctness of the keys makes the two coincide).
  * The reportlab canvas is modelled by the observable page structure: for each
    page, the list of bookmark anchors it declares (`bookmarkPage`) and the
    list of link-target anchors it emits (`linkRect`), in emission order.
  * Floating-point width arithmetic in `wrap_text` (`len * font_size * 0.6`)
    is modelled over `ℚ` with the exact constant 3/5.
-/

set_option maxRecDepth 4000

/-! ### Gregorian calendar (Python `calendar` / `datetime.date`) -/

/-- Python `calendar.isleap(year)`:
`year % 4 == 0 and (year % 100 != 0 or year % 400 == 0)`. -/
def isleap (y : ℕ) : Bool := y % 4 == 0 && (y % 100 != 0 || y % 400 == 0)

/-- Days in the months of a common year, 1-indexed by month with a leading 0,
exactly the `mdays` table of Python's `calendar` module. -/
def mdays : List ℕ := [0, 31, 28, 31, 30, 31, 30, 31, 31, 30, 31, 30, 31]

/-- Number of days of month `m` of year `y`, i.e. the second component of
Python `calendar.monthrange(y, m)`: `mdays[m] + (m == 2 and isleap(y))`. -/
def monthrange_days (y m : ℕ) : ℕ :=
  mdays.getD m 0 + (if m = 2 ∧ isleap y then 1 else 0)

/-- Cumulative number of days strictly before month `m` (1-indexed at
position `m - 1`) in a common year. -/
def cumDays : List ℕ := [0, 31, 59, 90, 120, 151, 181, 212, 243, 273, 304, 334]

/-- Days in all years strictly before year `y` in the proleptic Gregorian
calendar (as in CPython's `datetime._days_before_year`). -/
def daysBeforeYear (y : ℕ) : ℕ :=
  365 * (y - 1) + (y - 1) / 4 - (y - 1) / 100 + (y - 1) / 400

/-- Days of year `y` strictly before month `m`
(as in CPython's `datetime._days_before_month`). -/
def daysBeforeMonth (y m : ℕ) : ℕ :=
  cumDays.getD (m - 1) 0 + (if 2 < m ∧ isleap y then 1 else 0)

/-- Python `date(y, m, d).toordinal()`: day number counted from
`date(1, 1, 1).toordinal() = 1`. -/
def toOrdinal (y m d : ℕ) : ℕ := daysBeforeYear y + daysBeforeMonth y m + d

/-- Python `date(y, m, d).weekday()`: Monday = 0 .. Sunday = 6. -/
def pyWeekday (y m d : ℕ) : ℕ := (toOrdinal y m d - 1) % 7

/-- A valid Gregorian calendar date of year `y`. -/
def validDate (y m d : ℕ) : Prop :=
  1 ≤ m ∧ m ≤ 12 ∧ 1 ≤ d ∧ d ≤ monthrange_days y m

instance (y m d : ℕ) : Decidable (validDate y m d) := by
  unfold validDate; infer_instance

/-! ### Holiday table (`get_us_holidays` in `enhanced_diary.py`) -/

/-- The function `get_us_holidays(year)` of `enhanced_diary.py`, modelled as
the association list of its dict entries in insertion order.  Keys are
`(year, month, day)` date triples.  Python's `(a - w) % 7` on possibly
negative `a - w` is rendered as `(a + 7 - w) % 7` with `w ≤ 6`. -/
def get_us_holidays (year : ℕ) : List ((ℕ × ℕ × ℕ) × String) :=
  -- MLK Day: first Monday of January plus 14 days
  let mlk_day := (1 + (7 - pyWeekday year 1 1) % 7) + 14
  -- Presidents Day: first Monday of February plus 14 days
  let presidents_day := (1 + (7 - pyWeekday year 2 1) % 7) + 14
  -- Memorial Day: `31 - ((may_31.weekday() + 1) % 7)`
  let memorial_day := 31 - (pyWeekday year 5 31 + 1) % 7
  -- Labor Day: first Monday of September
  let labor_day := 1 + (7 - pyWeekday year 9 1) % 7
  -- Columbus Day: first Monday of October plus 7 days
  let columbus_day := (1 + (7 - pyWeekday year 10 1) % 7) + 7
  -- Thanksgiving: first Thursday of November plus 21 days
  let thanksgiving := (1 + (3 + 7 - pyWeekday year 11 1) % 7) + 21
  [((year, 1, 1), "New Year\x27s Day"),
   ((year, 7, 4), "Independence Day"),
   ((year, 11, 11), "Veterans Day"),
   ((year, 12, 25), "Christmas Day"),
   ((year, 1, mlk_day), "Martin Luther King Jr. Day"),
   ((year, 2, presidents_day), "Presidents Day"),
   ((year, 5, memorial_day), "Memorial Day"),
   ((year, 9, labor_day), "Labor Day"),
   ((year, 10, columbus_day), "Columbus Day"),
   ((year, 11, thanksgiving), "Thanksgiving Day")]

/-- C5: For every year Y in [1900,2100], `get_us_holidays(Y)` returns a table
of exactly 10 entries, whose keys are pairwise distinct dates all lying within
year Y (the year component is Y and month/day form a valid date of Y). -/
theorem C5_holidays_ten_distinct_in_year (y : ℕ) (h1 : 1900 ≤ y) (h2 : y ≤ 2100) :
    (get_us_holidays y).length = 10 ∧
    ((get_us_holidays y).map Prod.fst).Nodup ∧
    ∀ e ∈ get_us_holidays y, e.1.1 = y ∧ validDate y e.1.2.1 e.1.2.2 := by
  have key : ∀ z < 201,
      (get_us_holidays (1900 + z)).length = 10 ∧
      ((get_us_holidays (1900 + z)).map Prod.fst).Nodup ∧
      ∀ e ∈ get_us_holidays (1900 + z),
        e.1.1 = 1900 + z ∧ validDate (1900 + z) e.1.2.1 e.1.2.2 := by decide
  have hy : y = 1900 + (y - 1900) := by omega
  rw [hy]
  exact key (y - 1900) (by omega)

/-- Witness for C5 at the concrete year 2024. -/
theorem C5_holidays_ten_distinct_in_year_witness :
    (get_us_holidays 2024).length = 10 ∧
    ((get_us_holidays 2024).map Prod.fst).Nodup ∧
    ∀ e ∈ get_us_holidays 2024, e.1.1 = 2024 ∧ validDate 2024 e.1.2.1 e.1.2.2 :=
  C5_holidays_ten_distinct_in_year 2024 (by decide) (by decide)

/-- C4 (divergence witness): in 2025 the code places Memorial Day on
May 25, 2025, which is a Sunday (`weekday = 6`), not a Monday (`weekday = 0`):
the computation `31 - ((may_31.weekday() + 1) % 7)` steps back to the last
Sunday of May, contradicting the comment "Memorial Day - Last Monday in May".
The other five floating holidays do land on their required weekdays. -/
theorem C4_memorial_day_2025_is_sunday :
    ((2025, 5, 25), "Memorial Day") ∈ get_us_holidays 2025 ∧
    pyWeekday 2025 5 25 = 6 ∧ pyWeekday 2025 5 26 = 0 := by decide

/-! ### Page identity and link graph (`DiaryGenerator` in `enhanced_diary.py`) -/

/-- The kind of a generated page: the cover, a month-overview page, or a
single-day page. -/
inductive PageKind
  | cover
  | month (m : ℕ)
  | day (m d : ℕ)
deriving DecidableEq, Repr

/-- Observable navigation structure of one generated PDF page: the bookmark
anchors the page declares via `bookmarkPage` and the link-target anchor of
every `linkRect` call the page emits, both in emission order. -/
structure PageModel where
  kind : PageKind
  bookmarks : List String
  links : List String
deriving DecidableEq, Repr

/-- Anchor string of the month page of month `m`: the f-string `month_{m}`. -/
def month_anchor (m : ℕ) : String := "month_" ++ toString m

/-- Anchor string of the day page of `(m, d)`: the f-string `day_{m}_{d}`. -/
def day_anchor (m d : ℕ) : String := "day_" ++ toString m ++ "_" ++ toString d

/-- Link targets emitted by `DiaryGenerator.draw_month_tabs(c, current_month)`:
one `linkRect` to `month_{i+1}` for each tab index `i` in `range(12)` with
`current_month != i + 1` (the current month's tab is highlighted, not linked).
`current_month = None` is modelled as `none`. -/
def draw_month_tabs (current_month : Option ℕ) : List String :=
  (List.range 12).filterMap fun i =>
    if current_month = some (i + 1) then none else some (month_anchor (i + 1))

/-- Split a list into consecutive weeks of (at most) seven entries, as
`calendar.monthcalendar` does with its padded day sequence. -/
def chunk7 (l : List ℕ) : List (List ℕ) :=
  if h : l = [] then [] else l.take 7 :: chunk7 (l.drop 7)
termination_by l.length
decreasing_by
  have : 0 < l.length := List.length_pos.2 h
  simp only [List.length_drop]
  omega

/-- Python `calendar.monthcalendar(y, m)` (with the default
`firstweekday = 0`, Monday): the matrix of weeks, where cells outside the
month hold `0` and the in-month cells hold `1 .. monthrange_days y m` in
order. -/
def monthcalendar (y m : ℕ) : List (List ℕ) :=
  let w := pyWeekday y m 1
  let n := monthrange_days y m
  chunk7 (List.replicate w 0 ++ List.range' 1 n ++
    List.replicate ((7 - (w + n) % 7) % 7) 0)

/-- Model of `DiaryGenerator.create_cover_page`: declares no bookmark; the only
`linkRect` calls come from `draw_month_tabs(c)` with no current month. -/
def create_cover_page : PageModel :=
  ⟨.cover, [], draw_month_tabs none⟩

/-- Model of `DiaryGenerator.create_month_page(c, month_num)`: draws the tabs with
`current_month = month_num`, declares the bookmark `month_{month_num}`, and
then emits one `linkRect` to `day_{month_num}_{day}` for every nonzero cell
of `calendar.monthcalendar`, in row-major grid order. -/
def create_month_page (y m : ℕ) : PageModel :=
  ⟨.month m, [month_anchor m],
    draw_month_tabs (some m) ++
      (monthcalendar y m).flatten.filterMap fun day =>
        if day = 0 then none else some (day_anchor m day)⟩

/-- Model of `DiaryGenerator.create_day_page(c, month_num, day_num)`: draws the tabs
with `current_month = month_num` and declares the bookmark
`day_{month_num}_{day_num}`; no other `linkRect` is emitted. -/
def create_day_page (_y m d : ℕ) : PageModel :=
  ⟨.day m d, [day_anchor m d], draw_month_tabs (some m)⟩

/-- Model of `DiaryGenerator.generate_diary`: the cover page, then the month pages for
`month in range(1, 13)`, then for each month the day pages for
`day in range(1, days_in_month + 1)` where
`days_in_month = calendar.monthrange(year, month)[1]`. -/
def generate_diary_pages (year : ℕ) : List PageModel :=
  create_cover_page ::
    ((List.range' 1 12).map (create_month_page year) ++
      (List.range' 1 12).flatMap fun month =>
        (List.range' 1 (monthrange_days year month)).map (create_day_page year month))

/-! ### Normal form of a build: the page list depends on the year only
through its leap-year bit -/

/-- Month lengths as a function of the leap bit alone. -/
def daysB (b : Bool) (m : ℕ) : ℕ :=
  mdays.getD m 0 + (if m = 2 ∧ b then 1 else 0)

theorem monthrange_days_eq (y m : ℕ) : monthrange_days y m = daysB (isleap y) m := rfl

/-- Page list of a build, normalised: `monthcalendar` is replaced by the plain
day enumeration and all month lengths are expressed through the leap bit. -/
def pagesNF (b : Bool) : List PageModel :=
  ⟨.cover, [], draw_month_tabs none⟩ ::
    (((List.range' 1 12).map fun m =>
        ⟨.month m, [month_anchor m],
          draw_month_tabs (some m) ++ (List.range' 1 (daysB b m)).map (day_anchor m)⟩) ++
      (List.range' 1 12).flatMap fun m =>
        (List.range' 1 (daysB b m)).map fun d =>
          ⟨.day m d, [day_anchor m d], draw_month_tabs (some m)⟩)

theorem chunk7_flatten_aux (n : ℕ) : ∀ l : List ℕ, l.length ≤ n → (chunk7 l).flatten = l := by
  induction n with
  | zero =>
    intro l hl
    have hnil : l = [] := by cases l <;> simp_all
    simp [hnil, chunk7]
  | succ k ih =>
    intro l hl
    by_cases h : l = []
    · simp [h, chunk7]
    · have hpos : 0 < l.length := List.length_pos.2 h
      rw [chunk7, dif_neg h, List.flatten_cons,
        ih (l.drop 7) (by simp only [List.length_drop]; omega)]
      exact List.take_append_drop 7 l

theorem chunk7_flatten (l : List ℕ) : (chunk7 l).flatten = l :=
  chunk7_flatten_aux l.length l le_rfl

theorem filterMap_day_replicate (m k : ℕ) :
    (List.replicate k 0).filterMap
      (fun day => if day = 0 then none else some (day_anchor m day)) = [] := by
  induction k with
  | zero => rfl
  | succ n ih => simp [List.replicate_succ, List.filterMap_cons, ih]

theorem filterMap_day_range' (m s n : ℕ) (hs : 1 ≤ s) :
    (List.range' s n).filterMap
      (fun day => if day = 0 then none else some (day_anchor m day)) =
    (List.range' s n).map (day_anchor m) := by
  induction n generalizing s with
  | zero => rfl
  | succ k ih =>
    rw [List.range'_succ, List.filterMap_cons, List.map_cons]
    have hs0 : s ≠ 0 := by omega
    simp only [hs0, if_false]
    rw [ih (s + 1) (by omega)]

theorem month_day_links (y m : ℕ) :
    ((monthcalendar y m).flatten.filterMap fun day =>
        if day = 0 then none else some (day_anchor m day)) =
    (List.range' 1 (monthrange_days y m)).map (day_anchor m) := by
  unfold monthcalendar
  rw [chunk7_flatten, List.filterMap_append, List.filterMap_append,
    filterMap_day_replicate, filterMap_day_replicate,
    filterMap_day_range' m 1 _ (by omega)]
  simp

/-- A full build's page list is a function of the leap bit alone. -/
theorem generate_diary_pages_eq (year : ℕ) :
    generate_diary_pages year = pagesNF (isleap year) := by
  unfold generate_diary_pages pagesNF create_cover_page create_month_page create_day_page
  refine congrArg _ (congrArg₂ _ ?_ ?_)
  · exact List.map_congr_left fun m _ => by
      rw [month_day_links, monthrange_days_eq]
  · refine congrArg _ (funext fun m => ?_)
    rw [monthrange_days_eq]

/-! ### Injectivity of the anchor naming scheme -/

theorem digitChar_inj : ∀ a < 10, ∀ b < 10, Nat.digitChar a = Nat.digitChar b → a = b := by
  decide

theorem digitChar_ne_underscore : ∀ a < 10, Nat.digitChar a ≠ '_' := by decide

theorem repr_data_small (n : ℕ) (h1 : 1 ≤ n) (h2 : n ≤ 31) :
    (Nat.repr n).data =
      if n < 10 then [Nat.digitChar n]
      else [Nat.digitChar (n / 10), Nat.digitChar (n % 10)] := by
  interval_cases n <;> rfl

theorem repr_inj_small {m n : ℕ} (hm1 : 1 ≤ m) (hm2 : m ≤ 31) (hn1 : 1 ≤ n) (hn2 : n ≤ 31)
    (h : (Nat.repr m).data = (Nat.repr n).data) : m = n := by
  rw [repr_data_small m hm1 hm2, repr_data_small n hn1 hn2] at h
  by_cases h1 : m < 10 <;> by_cases h2 : n < 10 <;> simp [h1, h2] at h
  · exact digitChar_inj m h1 n h2 h
  · have e1 : m / 10 = n / 10 := digitChar_inj _ (by omega) _ (by omega) h.1
    have e2 : m % 10 = n % 10 := digitChar_inj _ (by omega) _ (by omega) h.2
    omega

theorem underscore_not_mem_repr {n : ℕ} (h1 : 1 ≤ n) (h2 : n ≤ 31) :
    '_' ∉ (Nat.repr n).data := by
  rw [repr_data_small n h1 h2]
  by_cases h : n < 10 <;> simp [h]
  · exact fun he => digitChar_ne_underscore n h he.symm
  · exact ⟨fun he => digitChar_ne_underscore (n / 10) (by omega) he.symm,
      fun he => digitChar_ne_underscore (n % 10) (by omega) he.symm⟩

theorem append_sep_inj {c : Char} :
    ∀ {a b : List Char} {x y : List Char}, c ∉ a → c ∉ b →
      a ++ c :: x = b ++ c :: y → a = b ∧ x = y := by
  intro a
  induction a with
  | nil =>
    intro b x y _ hb h
    cases b with
    | nil => simpa using h
    | cons hd tl =>
      simp only [List.nil_append, List.cons_append, List.cons.injEq] at h
      exact absurd (h.1 ▸ List.mem_cons_self hd tl) hb
  | cons hd tl ih =>
    intro b x y ha hb h
    cases b with
    | nil =>
      simp only [List.cons_append, List.nil_append, List.cons.injEq] at h
      exact absurd (h.1.symm ▸ List.mem_cons_self hd tl) ha
    | cons hd' tl' =>
      simp only [List.cons_append, List.cons.injEq] at h
      obtain ⟨he, h⟩ := h
      have := ih (fun hc => ha (List.mem_cons_of_mem hd hc))
        (fun hc => hb (List.mem_cons_of_mem hd' hc)) h
      exact ⟨by rw [he, this.1], this.2⟩

theorem month_anchor_data (m : ℕ) :
    (month_anchor m).data = 'm' :: 'o' :: 'n' :: 't' :: 'h' :: '_' :: (Nat.repr m).data := by
  unfold month_anchor
  rw [String.data_append]
  rfl

theorem day_anchor_data (m d : ℕ) :
    (day_anchor m d).data =
      'd' :: 'a' :: 'y' :: '_' :: ((Nat.repr m).data ++ '_' :: (Nat.repr d).data) := by
  unfold day_anchor
  rw [String.data_append, String.data_append, String.data_append]
  simp only [List.append_assoc]
  rfl

theorem month_anchor_inj {i j : ℕ} (hi1 : 1 ≤ i) (hi2 : i ≤ 31) (hj1 : 1 ≤ j) (hj2 : j ≤ 31)
    (h : month_anchor i = month_anchor j) : i = j := by
  have hd := congrArg String.data h
  rw [month_anchor_data, month_anchor_data] at hd
  simp only [List.cons.injEq, true_and] at hd
  exact repr_inj_small hi1 hi2 hj1 hj2 hd

theorem day_anchor_inj {m d m' d' : ℕ}
    (hm1 : 1 ≤ m) (hm2 : m ≤ 31) (hd1 : 1 ≤ d) (hd2 : d ≤ 31)
    (hm1' : 1 ≤ m') (hm2' : m' ≤ 31) (hd1' : 1 ≤ d') (hd2' : d' ≤ 31)
    (h : day_anchor m d = day_anchor m' d') : m = m' ∧ d = d' := by
  have hd := congrArg String.data h
  rw [day_anchor_data, day_anchor_data] at hd
  simp only [List.cons.injEq, true_and] at hd
  have hsplit := append_sep_inj (underscore_not_mem_repr hm1 hm2)
    (underscore_not_mem_repr hm1' hm2') hd
  exact ⟨repr_inj_small hm1 hm2 hm1' hm2' hsplit.1,
    repr_inj_small hd1 hd2 hd1' hd2' hsplit.2⟩

theorem month_anchor_ne_day_anchor (m i j : ℕ) : month_anchor m ≠ day_anchor i j := by
  intro h
  have hd := congrArg String.data h
  rw [month_anchor_data, day_anchor_data] at hd
  simp at hd

/-! ### Anchor bookkeeping of a full build -/

/-- All month-page anchors of a build, in declaration order. -/
def monthAnchors : List String := (List.range' 1 12).map month_anchor

/-- All day-page anchors of a build with leap bit `b`, in declaration order. -/
def dayAnchors (b : Bool) : List String :=
  (List.range' 1 12).flatMap fun m => (List.range' 1 (daysB b m)).map (day_anchor m)

theorem anchors_nf (b : Bool) :
    (pagesNF b).flatMap PageModel.bookmarks = monthAnchors ++ dayAnchors b := by
  cases b <;> rfl

theorem daysB_le_31 (b : Bool) (m : ℕ) : daysB b m ≤ 31 := by
  rcases Nat.lt_or_ge m 13 with h | h
  · interval_cases m <;> cases b <;> simp [daysB, mdays]
  · unfold daysB
    rw [List.getD_eq_default _ _ (by simp [mdays]; omega)]
    have : ¬(m = 2 ∧ b) := by rintro ⟨rfl, -⟩; omega
    rw [if_neg this]
    omega

theorem monthAnchors_nodup : monthAnchors.Nodup := by
  refine List.Nodup.map_on ?_ (List.nodup_range' 1 12)
  intro x hx y hy h
  rw [List.mem_range'_1] at hx hy
  exact month_anchor_inj (by omega) (by omega) (by omega) (by omega) h

theorem dayAnchors_nodup (b : Bool) : (dayAnchors b).Nodup := by
  unfold dayAnchors
  rw [List.flatMap_def, List.nodup_flatten]
  constructor
  · intro l hl
    rw [List.mem_map] at hl
    obtain ⟨m, hm, rfl⟩ := hl
    rw [List.mem_range'_1] at hm
    refine List.Nodup.map_on ?_ (List.nodup_range' _ _)
    intro x hx y hy h
    rw [List.mem_range'_1] at hx hy
    have hbound := daysB_le_31 b m
    exact (day_anchor_inj (by omega) (by omega) (by omega) (by omega)
      (by omega) (by omega) (by omega) (by omega) h).2
  · rw [List.pairwise_map]
    refine List.Pairwise.imp_of_mem ?_ (List.pairwise_lt_range' 1 12)
    intro a a' ha ha' hlt
    rw [List.mem_range'_1] at ha ha'
    rw [List.disjoint_left]
    intro t ht ht'
    rw [List.mem_map] at ht ht'
    obtain ⟨x, hx, rfl⟩ := ht
    obtain ⟨x', hx', he⟩ := ht'
    rw [List.mem_range'_1] at hx hx'
    have hb := daysB_le_31 b a
    have hb' := daysB_le_31 b a'
    have := (day_anchor_inj (by omega) (by omega) (by omega) (by omega)
      (by omega) (by omega) (by omega) (by omega) he.symm).1
    omega

theorem month_day_disjoint (b : Bool) : monthAnchors.Disjoint (dayAnchors b) := by
  rw [List.disjoint_left]
  intro t ht ht'
  unfold monthAnchors at ht
  rw [List.mem_map] at ht
  obtain ⟨i, -, rfl⟩ := ht
  unfold dayAnchors at ht'
  rw [List.mem_flatMap] at ht'
  obtain ⟨m, -, hm⟩ := ht'
  rw [List.mem_map] at hm
  obtain ⟨d, -, he⟩ := hm
  exact month_anchor_ne_day_anchor i m d he.symm

theorem anchors_nodup (b : Bool) : ((pagesNF b).flatMap PageModel.bookmarks).Nodup := by
  rw [anchors_nf, List.nodup_append]
  exact ⟨monthAnchors_nodup, dayAnchors_nodup b, month_day_disjoint b⟩

theorem mem_draw_month_tabs {cur : Option ℕ} {t : String} (h : t ∈ draw_month_tabs cur) :
    ∃ i, 1 ≤ i ∧ i ≤ 12 ∧ cur ≠ some i ∧ t = month_anchor i := by
  unfold draw_month_tabs at h
  rw [List.mem_filterMap] at h
  obtain ⟨i, hi, hite⟩ := h
  rw [List.mem_range] at hi
  by_cases hc : cur = some (i + 1)
  · rw [if_pos hc] at hite
    exact absurd hite (by simp)
  · rw [if_neg hc] at hite
    exact ⟨i + 1, by omega, by omega, hc, (Option.some.inj hite).symm⟩

theorem month_anchor_mem_tabs {cur : Option ℕ} {i : ℕ} (h1 : 1 ≤ i) (h2 : i ≤ 12)
    (hne : cur ≠ some i) : month_anchor i ∈ draw_month_tabs cur := by
  unfold draw_month_tabs
  rw [List.mem_filterMap]
  refine ⟨i - 1, by rw [List.mem_range]; omega, ?_⟩
  have he : i - 1 + 1 = i := by omega
  rw [he, if_neg hne]

theorem month_anchor_mem_anchors {b : Bool} {i : ℕ} (h1 : 1 ≤ i) (h2 : i ≤ 12) :
    month_anchor i ∈ monthAnchors ++ dayAnchors b := by
  apply List.mem_append_left
  unfold monthAnchors
  rw [List.mem_map]
  exact ⟨i, by rw [List.mem_range'_1]; omega, rfl⟩

theorem day_anchor_mem_anchors {b : Bool} {m d : ℕ} (h1 : 1 ≤ m) (h2 : m ≤ 12)
    (h3 : 1 ≤ d) (h4 : d ≤ daysB b m) :
    day_anchor m d ∈ monthAnchors ++ dayAnchors b := by
  apply List.mem_append_right
  unfold dayAnchors
  rw [List.mem_flatMap]
  refine ⟨m, by rw [List.mem_range'_1]; omega, ?_⟩
  rw [List.mem_map]
  exact ⟨d, by rw [List.mem_range'_1]; omega, rfl⟩

theorem mem_pagesNF {b : Bool} {p : PageModel} (h : p ∈ pagesNF b) :
    p = ⟨.cover, [], draw_month_tabs none⟩ ∨
    (∃ m, 1 ≤ m ∧ m ≤ 12 ∧ p = ⟨.month m, [month_anchor m],
        draw_month_tabs (some m) ++ (List.range' 1 (daysB b m)).map (day_anchor m)⟩) ∨
    (∃ m d, 1 ≤ m ∧ m ≤ 12 ∧ 1 ≤ d ∧ d ≤ daysB b m ∧
        p = ⟨.day m d, [day_anchor m d], draw_month_tabs (some m)⟩) := by
  unfold pagesNF at h
  rw [List.mem_cons, List.mem_append] at h
  rcases h with h | h | h
  · exact Or.inl h
  · refine Or.inr (Or.inl ?_)
    rw [List.mem_map] at h
    obtain ⟨m, hm, he⟩ := h
    rw [List.mem_range'_1] at hm
    exact ⟨m, by omega, by omega, he.symm⟩
  · refine Or.inr (Or.inr ?_)
    rw [List.mem_flatMap] at h
    obtain ⟨m, hm, hp⟩ := h
    rw [List.mem_map] at hp
    obtain ⟨d, hd, he⟩ := hp
    rw [List.mem_range'_1] at hm
    rw [List.mem_range'_1] at hd
    exact ⟨m, d, by omega, by omega, by omega, by omega, he.symm⟩

/-- C1: Across a full document build (`generate_diary`) for any year in
[1900,2100], no two distinct pages declare the same bookmark anchor string
(each page declares at most one, so the concatenated declaration list has no
duplicate), and every anchor emitted as a link target is declared via
`bookmarkPage` by exactly one page (its count among all declared anchors
is 1). -/
theorem C1_anchor_uniqueness_and_closure (y : ℕ) (h1 : 1900 ≤ y) (h2 : y ≤ 2100) :
    ((generate_diary_pages y).flatMap PageModel.bookmarks).Nodup ∧
    ∀ t ∈ (generate_diary_pages y).flatMap PageModel.links,
      ((generate_diary_pages y).flatMap PageModel.bookmarks).count t = 1 := by
  rw [generate_diary_pages_eq]
  refine ⟨anchors_nodup _, ?_⟩
  intro t ht
  refine List.count_eq_one_of_mem (anchors_nodup _) ?_
  rw [List.mem_flatMap] at ht
  obtain ⟨p, hp, htl⟩ := ht
  rw [anchors_nf]
  rcases mem_pagesNF hp with hc | ⟨m, hm1, hm2, rfl⟩ | ⟨m, d, hm1, hm2, hd1, hd2, rfl⟩
  · subst hc
    obtain ⟨i, hi1, hi2, -, rfl⟩ :=
      mem_draw_month_tabs (show t ∈ draw_month_tabs none from htl)
    exact month_anchor_mem_anchors hi1 hi2
  · rcases List.mem_append.1 (show t ∈ draw_month_tabs (some m) ++
        (List.range' 1 (daysB (isleap y) m)).map (day_anchor m) from htl) with hta | htd
    · obtain ⟨i, hi1, hi2, -, rfl⟩ := mem_draw_month_tabs hta
      exact month_anchor_mem_anchors hi1 hi2
    · rw [List.mem_map] at htd
      obtain ⟨d, hd, rfl⟩ := htd
      rw [List.mem_range'_1] at hd
      exact day_anchor_mem_anchors hm1 hm2 (by omega) (by omega)
  · obtain ⟨i, hi1, hi2, -, rfl⟩ :=
      mem_draw_month_tabs (show t ∈ draw_month_tabs (some m) from htl)
    exact month_anchor_mem_anchors hi1 hi2

/-- Witness for C1 at the concrete year 2024. -/
theorem C1_anchor_uniqueness_and_closure_witness :
    ((generate_diary_pages 2024).flatMap PageModel.bookmarks).Nodup ∧
    ∀ t ∈ (generate_diary_pages 2024).flatMap PageModel.links,
      ((generate_diary_pages 2024).flatMap PageModel.bookmarks).count t = 1 :=
  C1_anchor_uniqueness_and_closure 2024 (by omega) (by omega)

/-- C2: For every page of a full build (cover, month pages, day pages), the
page's own declared anchor never appears among the link targets the page
emits via `linkRect`. -/
theorem C2_no_self_links (y : ℕ) (h1 : 1900 ≤ y) (h2 : y ≤ 2100) :
    ∀ p ∈ generate_diary_pages y, ∀ a ∈ p.bookmarks, a ∉ p.links := by
  rw [generate_diary_pages_eq]
  intro p hp a ha hal
  rcases mem_pagesNF hp with hc | ⟨m, hm1, hm2, rfl⟩ | ⟨m, d, hm1, hm2, hd1, hd2, rfl⟩
  · subst hc
    simp at ha
  · have haa : a = month_anchor m := by simpa using ha
    subst haa
    rcases List.mem_append.1 hal with hta | htd
    · obtain ⟨i, hi1, hi2, hne, he⟩ := mem_draw_month_tabs hta
      have := month_anchor_inj (by omega) (by omega) (by omega) (by omega) he
      exact hne (by rw [this])
    · rw [List.mem_map] at htd
      obtain ⟨d', -, he⟩ := htd
      exact month_anchor_ne_day_anchor m m d' he.symm
  · have haa : a = day_anchor m d := by simpa using ha
    subst haa
    obtain ⟨i, hi1, hi2, hne, he⟩ := mem_draw_month_tabs hal
    exact month_anchor_ne_day_anchor i m d he.symm

/-- Witness for C2 at the concrete year 2025 and the day page for March 14:
that page declares `day_3_14` and does not link to it. -/
theorem C2_no_self_links_witness :
    day_anchor 3 14 ∉ (create_day_page 2025 3 14).links :=
  C2_no_self_links 2025 (by omega) (by omega) (create_day_page 2025 3 14)
    (by
      unfold generate_diary_pages
      apply List.mem_cons_of_mem
      apply List.mem_append_right
      rw [List.mem_flatMap]
      refine ⟨3, by rw [List.mem_range'_1]; omega, ?_⟩
      rw [List.mem_map]
      exact ⟨14, by rw [List.mem_range'_1]; exact ⟨by omega, by decide⟩, rfl⟩)
    (day_anchor 3 14) (List.mem_singleton.2 rfl)

/-- C3 counterexample: in the full build for 2024, the day page for January 2
is generated, yet its link targets do not include `month_1`, the anchor of its
own containing month — `create_day_page` passes `month_num` as the current
month to `draw_month_tabs`, which suppresses that link, so the claim that day
pages emit all 12 month links is false. -/
theorem C3_counterexample_day_page_omits_own_month :
    create_day_page 2024 1 2 ∈ generate_diary_pages 2024 ∧
    month_anchor 1 ∉ (create_day_page 2024 1 2).links := by
  constructor
  · unfold generate_diary_pages
    apply List.mem_cons_of_mem
    apply List.mem_append_right
    rw [List.mem_flatMap]
    refine ⟨1, by rw [List.mem_range'_1]; omega, ?_⟩
    rw [List.mem_map]
    refine ⟨2, by rw [List.mem_range'_1]; exact ⟨by omega, by decide⟩, rfl⟩
  · intro h
    obtain ⟨i, hi1, hi2, hne, he⟩ :=
      mem_draw_month_tabs (show month_anchor 1 ∈ draw_month_tabs (some 1) from h)
    have := month_anchor_inj (by omega) (by omega) (by omega) (by omega) he
    exact hne (by rw [← this])

/-- C3 amended: for every day page `(m, d)`, the month-tab sidebar emits
exactly the 11 month links `month_i` with `i ≠ m`; the link to the page's own
containing month `m` is suppressed, because `create_day_page` passes
`month_num` as the highlighted current month to `draw_month_tabs`. -/
theorem C3_amended_day_page_emits_eleven_month_links (y m d : ℕ)
    (h1 : 1 ≤ m) (h2 : m ≤ 12) :
    (create_day_page y m d).links = draw_month_tabs (some m) ∧
    ∀ i, 1 ≤ i → i ≤ 12 →
      (month_anchor i ∈ (create_day_page y m d).links ↔ i ≠ m) := by
  refine ⟨rfl, fun i hi1 hi2 => ?_⟩
  constructor
  · intro h him
    subst him
    obtain ⟨j, hj1, hj2, hne, he⟩ :=
      mem_draw_month_tabs (show month_anchor i ∈ draw_month_tabs (some i) from h)
    have := month_anchor_inj (by omega) (by omega) (by omega) (by omega) he
    exact hne (by rw [← this])
  · intro hne
    exact month_anchor_mem_tabs hi1 hi2 fun he => hne (Option.some.inj he).symm

/-- Witness for the amended C3 at the day page (5, 17) of 2024. -/
theorem C3_amended_day_page_emits_eleven_month_links_witness :
    (create_day_page 2024 5 17).links = draw_month_tabs (some 5) ∧
    ∀ i, 1 ≤ i → i ≤ 12 →
      (month_anchor i ∈ (create_day_page 2024 5 17).links ↔ i ≠ 5) :=
  C3_amended_day_page_emits_eleven_month_links 2024 5 17 (by omega) (by omega)

/-- C6: For every year in [1900,2100], `generate_diary` emits pages in exactly
this order: the cover exactly once, then the 12 month pages for months 1..12
in order, then one day page per calendar day in chronological order; the
number of day pages is 366 in a Gregorian leap year (divisible by 4, except
centuries unless divisible by 400) and 365 otherwise. -/
theorem C6_page_order_and_day_count (y : ℕ) (h1 : 1900 ≤ y) (h2 : y ≤ 2100) :
    ((generate_diary_pages y).map PageModel.kind =
      PageKind.cover :: (((List.range' 1 12).map PageKind.month) ++
        (List.range' 1 12).flatMap fun m =>
          (List.range' 1 (monthrange_days y m)).map (PageKind.day m))) ∧
    (((generate_diary_pages y).filter fun p =>
        match p.kind with | .day _ _ => true | _ => false).length =
      if y % 4 = 0 ∧ (y % 100 ≠ 0 ∨ y % 400 = 0) then 366 else 365) := by
  have hleap : isleap y = true ↔ (y % 4 = 0 ∧ (y % 100 ≠ 0 ∨ y % 400 = 0)) := by
    simp [isleap]
  rw [generate_diary_pages_eq]
  simp only [monthrange_days_eq]
  cases hb : isleap y
  · rw [if_neg (by rw [← hleap, hb]; simp)]
    exact ⟨rfl, rfl⟩
  · rw [if_pos (hleap.mp hb)]
    exact ⟨rfl, rfl⟩

/-- Witness for C6 at the concrete leap year 2024. -/
theorem C6_page_order_and_day_count_witness :
    ((generate_diary_pages 2024).map PageModel.kind =
      PageKind.cover :: (((List.range' 1 12).map PageKind.month) ++
        (List.range' 1 12).flatMap fun m =>
          (List.range' 1 (monthrange_days 2024 m)).map (PageKind.day m))) ∧
    (((generate_diary_pages 2024).filter fun p =>
        match p.kind with | .day _ _ => true | _ => false).length =
      if 2024 % 4 = 0 ∧ (2024 % 100 ≠ 0 ∨ 2024 % 400 = 0) then 366 else 365) :=
  C6_page_order_and_day_count 2024 (by omega) (by omega)

/-! ### Text wrapping (`DiaryGenerator.wrap_text`) -/

/-- Whitespace characters recognised by Python's argument-less `str.split`
(the ASCII ones; every string this program wraps is ASCII). -/
def isPySpace (c : Char) : Bool :=
  c = ' ' || c = '\t' || c = '\n' || c = '\x0b' || c = '\x0c' || c = '\r'

/-- Accumulator pass of Python's argument-less `str.split`: split on runs of
whitespace and discard empty pieces.  `acc` holds the current word reversed. -/
def splitGo (acc : List Char) : List Char → List (List Char)
  | [] => if acc.isEmpty then [] else [acc.reverse]
  | c :: rest =>
    if isPySpace c then
      if acc.isEmpty then splitGo [] rest else acc.reverse :: splitGo [] rest
    else splitGo (c :: acc) rest

/-- Python `text.split()` with no separator argument. -/
def pySplit (text : String) : List String :=
  (splitGo [] text.data).map fun w => ⟨w⟩

/-- Python `' '.join(words)` on character lists. -/
def joinWords : List (List Char) → List Char
  | [] => []
  | [w] => w
  | w :: ws => w ++ ' ' :: joinWords ws

/-- Python `' '.join(words)`. -/
def pyJoin (ws : List String) : String := ⟨joinWords (ws.map String.data)⟩

/-- Loop of `DiaryGenerator.wrap_text`: `cur` is `current_line`, the second
list holds the words still to process, and the emitted lines are returned in
order (the final `if current_line: lines.append(...)` is the base case). -/
def wrap_text_go (max_width font_size : ℚ) : List String → List String → List String
  | cur, [] => if cur.isEmpty then [] else [pyJoin cur]
  | cur, w :: rest =>
    let test_line := pyJoin (cur ++ [w])
    if (test_line.length : ℚ) * font_size * 0.6 ≤ max_width then
      wrap_text_go max_width font_size (cur ++ [w]) rest
    else if cur.isEmpty then
      wrap_text_go max_width font_size [w] rest
    else
      pyJoin cur :: wrap_text_go max_width font_size [w] rest

/-- Model of `DiaryGenerator.wrap_text(text, max_width, font_name, font_size)`; the
`font_name` argument is accepted and ignored, exactly as in the source. -/
def wrap_text (text : String) (max_width : ℚ) (_font_name : String)
    (font_size : ℚ) : List String :=
  wrap_text_go max_width font_size [] (pySplit text)

/-- A word as produced by `pySplit`: non-empty and free of whitespace. -/
def GoodS (s : String) : Prop :=
  s.data ≠ [] ∧ ∀ c ∈ s.data, isPySpace c = false

theorem splitGo_good : ∀ (l acc : List Char), (∀ c ∈ acc, isPySpace c = false) →
    ∀ w ∈ splitGo acc l, w ≠ [] ∧ ∀ c ∈ w, isPySpace c = false := by
  intro l
  induction l with
  | nil =>
    intro acc hacc w hw
    by_cases he : acc.isEmpty
    · simp [splitGo, he] at hw
    · simp only [splitGo, he, if_false, Bool.false_eq_true, List.mem_singleton] at hw
      subst hw
      refine ⟨by simpa [List.isEmpty_iff] using he, fun c hc => hacc c ?_⟩
      exact List.mem_reverse.1 hc
  | cons c rest ih =>
    intro acc hacc w hw
    by_cases hs : isPySpace c
    · by_cases he : acc.isEmpty
      · rw [show splitGo acc (c :: rest) = splitGo [] rest by
            simp [splitGo, hs, he]] at hw
        exact ih [] (by simp) w hw
      · rw [show splitGo acc (c :: rest) = acc.reverse :: splitGo [] rest by
            simp [splitGo, hs, he]] at hw
        rcases List.mem_cons.1 hw with rfl | hw'
        · refine ⟨by simpa [List.isEmpty_iff] using he, fun x hx => hacc x ?_⟩
          exact List.mem_reverse.1 hx
        · exact ih [] (by simp) w hw'
    · rw [show splitGo acc (c :: rest) = splitGo (c :: acc) rest by
          simp [splitGo, hs]] at hw
      refine ih (c :: acc) ?_ w hw
      intro x hx
      rcases List.mem_cons.1 hx with rfl | hx'
      · simpa using hs
      · exact hacc x hx'

theorem pySplit_good (text : String) : ∀ w ∈ pySplit text, GoodS w := by
  intro w hw
  unfold pySplit at hw
  rw [List.mem_map] at hw
  obtain ⟨l, hl, rfl⟩ := hw
  exact splitGo_good text.data [] (by simp) l hl

theorem splitGo_append_word : ∀ (w : List Char) (acc rest : List Char),
    (∀ c ∈ w, isPySpace c = false) →
    splitGo acc (w ++ rest) = splitGo (w.reverse ++ acc) rest := by
  intro w
  induction w with
  | nil => intro acc rest _; rfl
  | cons c w' ih =>
    intro acc rest hw
    have hc : isPySpace c = false := hw c (List.mem_cons_self _ _)
    rw [List.cons_append,
      show splitGo acc (c :: (w' ++ rest)) = splitGo (c :: acc) (w' ++ rest) by
        simp [splitGo, hc],
      ih (c :: acc) rest fun x hx => hw x (List.mem_cons_of_mem _ hx)]
    simp

theorem splitGo_joinWords : ∀ ws : List (List Char),
    (∀ w ∈ ws, w ≠ [] ∧ ∀ c ∈ w, isPySpace c = false) →
    splitGo [] (joinWords ws) = ws := by
  intro ws
  induction ws with
  | nil => intro _; rfl
  | cons w ws ih =>
    intro hgood
    have hw := hgood w (List.mem_cons_self _ _)
    cases ws with
    | nil =>
      have hj : joinWords [w] = w ++ [] := by simp [joinWords]
      rw [hj, splitGo_append_word w [] [] hw.2, List.append_nil]
      have hne : w.reverse.isEmpty = false := by
        simp [List.isEmpty_iff, hw.1]
      simp [splitGo, hne]
    | cons w' ws' =>
      have hj : joinWords (w :: w' :: ws') = w ++ ' ' :: joinWords (w' :: ws') := rfl
      rw [hj, splitGo_append_word w [] _ hw.2, List.append_nil]
      have hne : w.reverse.isEmpty = false := by
        simp [List.isEmpty_iff, hw.1]
      rw [show splitGo w.reverse (' ' :: joinWords (w' :: ws')) =
          w.reverse.reverse :: splitGo [] (joinWords (w' :: ws')) by
        simp [splitGo, isPySpace, hne]]
      rw [List.reverse_reverse,
        ih fun x hx => hgood x (List.mem_cons_of_mem _ hx)]

theorem pySplit_pyJoin (ws : List String) (h : ∀ w ∈ ws, GoodS w) :
    pySplit (pyJoin ws) = ws := by
  unfold pySplit pyJoin
  rw [splitGo_joinWords (ws.map String.data) ?goods]
  case goods =>
    intro w hw
    rw [List.mem_map] at hw
    obtain ⟨s, hs, rfl⟩ := hw
    exact h s hs
  · rw [List.map_map]
    have : (fun w : List Char => (⟨w⟩ : String)) ∘ String.data = id := by
      funext s
      rfl
    rw [this, List.map_id]

theorem pyJoin_singleton (w : String) : pyJoin [w] = w := rfl

theorem pyJoin_ne_empty (g : List String) (hne : g ≠ []) (hgood : ∀ w ∈ g, GoodS w) :
    pyJoin g ≠ "" := by
  intro h
  have hd : (pyJoin g).data = [] := by rw [h]
  cases g with
  | nil => exact hne rfl
  | cons w ws =>
    have hw := (hgood w (List.mem_cons_self _ _)).1
    cases ws with
    | nil => exact hw hd
    | cons w' ws' =>
      rw [show pyJoin (w :: w' :: ws') =
          ⟨w.data ++ ' ' :: joinWords ((w' :: ws').map String.data)⟩ from rfl] at hd
      cases hx : w.data with
      | nil => exact hw hx
      | cons c cs => simp [hx] at hd

/-- Behaviour of the `wrap_text` loop: every emitted line is the space-join of
a non-empty block of good words which, when it holds two or more words,
satisfied the width test when its last word was added; and the emitted blocks
concatenate to `current_line ++ remaining words`. -/
theorem wrap_text_go_spec (max_width font_size : ℚ) :
    ∀ (ws cur : List String), (∀ w ∈ ws, GoodS w) → (∀ w ∈ cur, GoodS w) →
    (2 ≤ cur.length → ((pyJoin cur).length : ℚ) * font_size * 0.6 ≤ max_width) →
    (∀ l ∈ wrap_text_go max_width font_size cur ws,
      ∃ g : List String, l = pyJoin g ∧ g ≠ [] ∧ (∀ w ∈ g, GoodS w) ∧
        (2 ≤ g.length → ((pyJoin g).length : ℚ) * font_size * 0.6 ≤ max_width)) ∧
    (wrap_text_go max_width font_size cur ws).flatMap pySplit = cur ++ ws := by
  intro ws
  induction ws with
  | nil =>
    intro cur hws hcur hinv
    by_cases he : cur.isEmpty
    · have hnil : cur = [] := by simpa [List.isEmpty_iff] using he
      subst hnil
      simp [wrap_text_go]
    · have hne : cur ≠ [] := by simpa [List.isEmpty_iff] using he
      constructor
      · intro l hl
        rw [show wrap_text_go max_width font_size cur [] = [pyJoin cur] by
          simp [wrap_text_go, he]] at hl
        rw [List.mem_singleton] at hl
        exact ⟨cur, hl, hne, hcur, hinv⟩
      · rw [show wrap_text_go max_width font_size cur [] = [pyJoin cur] by
          simp [wrap_text_go, he]]
        simp [pySplit_pyJoin cur hcur]
  | cons w rest ih =>
    intro cur hws hcur hinv
    have hw : GoodS w := hws w (List.mem_cons_self _ _)
    have hrest : ∀ x ∈ rest, GoodS x := fun x hx => hws x (List.mem_cons_of_mem _ hx)
    by_cases hfit :
        ((pyJoin (cur ++ [w])).length : ℚ) * font_size * 0.6 ≤ max_width
    · rw [show wrap_text_go max_width font_size cur (w :: rest) =
          wrap_text_go max_width font_size (cur ++ [w]) rest by
        simp [wrap_text_go, hfit]]
      have hcur' : ∀ x ∈ cur ++ [w], GoodS x := by
        intro x hx
        rcases List.mem_append.1 hx with h | h
        · exact hcur x h
        · rw [List.mem_singleton] at h; subst h; exact hw
      have := ih (cur ++ [w]) hrest hcur' fun _ => hfit
      exact ⟨this.1, by rw [this.2]; simp⟩
    · by_cases he : cur.isEmpty
      · have hnil : cur = [] := by simpa [List.isEmpty_iff] using he
        subst hnil
        rw [show wrap_text_go max_width font_size [] (w :: rest) =
            wrap_text_go max_width font_size [w] rest by
          simp [wrap_text_go, hfit]]
        have := ih [w] hrest (by
          intro x hx; rw [List.mem_singleton] at hx; subst hx; exact hw)
          (by intro h2; simp at h2)
        exact ⟨this.1, by rw [this.2]; simp⟩
      · have hne : cur ≠ [] := by simpa [List.isEmpty_iff] using he
        rw [show wrap_text_go max_width font_size cur (w :: rest) =
            pyJoin cur :: wrap_text_go max_width font_size [w] rest by
          simp [wrap_text_go, hfit, he]]
        have htail := ih [w] hrest (by
          intro x hx; rw [List.mem_singleton] at hx; subst hx; exact hw)
          (by intro h2; simp at h2)
        constructor
        · intro l hl
          rcases List.mem_cons.1 hl with rfl | hl'
          · exact ⟨cur, rfl, hne, hcur, hinv⟩
          · exact htail.1 l hl'
        · rw [List.flatMap_cons, htail.2, pySplit_pyJoin cur hcur]
          simp

/-- C7: For every string `text` and all `max_width`, `font_size` (and any
`font_name`), `wrap_text` returns a finite list of non-empty lines whose
words, concatenated in order, reproduce exactly `text.split()`: no word is
split, dropped, duplicated, or reordered. -/
theorem C7_wrap_text_word_roundtrip (text : String) (max_width : ℚ)
    (font_name : String) (font_size : ℚ) :
    (∀ l ∈ wrap_text text max_width font_name font_size, l ≠ "") ∧
    (wrap_text text max_width font_name font_size).flatMap pySplit =
      pySplit text := by
  have hspec := wrap_text_go_spec max_width font_size (pySplit text) []
    (pySplit_good text) (by simp) (by intro h2; simp at h2)
  constructor
  · intro l hl
    obtain ⟨g, rfl, hgne, hgg, -⟩ := hspec.1 l hl
    exact pyJoin_ne_empty g hgne hgg
  · simpa using hspec.2

/-- Witness for C7 at the spec's end-to-end example input. -/
theorem C7_wrap_text_word_roundtrip_witness :
    (∀ l ∈ wrap_text "The journey of a thousand miles begins with one step."
        400 "DancingScript-Regular" 12, l ≠ "") ∧
    (wrap_text "The journey of a thousand miles begins with one step."
        400 "DancingScript-Regular" 12).flatMap pySplit =
      pySplit "The journey of a thousand miles begins with one step." :=
  C7_wrap_text_word_roundtrip _ 400 _ 12

/-- C10: every line returned by `wrap_text` that contains two or more words
satisfies `len(line) * font_size * 0.6 <= max_width`; a line violating the
bound is necessarily a single word whose own length already exceeds the
budget. -/
theorem C10_wrap_text_width_budget (text : String) (max_width : ℚ)
    (font_name : String) (font_size : ℚ) :
    ∀ l ∈ wrap_text text max_width font_name font_size,
      (2 ≤ (pySplit l).length →
        (l.length : ℚ) * font_size * 0.6 ≤ max_width) ∧
      (¬ (l.length : ℚ) * font_size * 0.6 ≤ max_width →
        ∃ w, pySplit l = [w] ∧ l = w ∧
          ¬ (w.length : ℚ) * font_size * 0.6 ≤ max_width) := by
  intro l hl
  obtain ⟨g, rfl, hgne, hgg, hbound⟩ :=
    (wrap_text_go_spec max_width font_size (pySplit text) []
      (pySplit_good text) (by simp) (by intro h2; simp at h2)).1 l hl
  have hsplit : pySplit (pyJoin g) = g := pySplit_pyJoin g hgg
  constructor
  · intro h2
    rw [hsplit] at h2
    exact hbound h2
  · intro hviol
    have hlen : g.length = 1 := by
      rcases Nat.lt_or_ge g.length 2 with h | h
      · have := List.length_pos.2 hgne
        omega
      · exact absurd (hbound h) hviol
    obtain ⟨w, rfl⟩ : ∃ w, g = [w] := by
      cases g with
      | nil => simp at hlen
      | cons a t =>
        cases t with
        | nil => exact ⟨a, rfl⟩
        | cons b t' => simp at hlen
    rw [pyJoin_singleton] at hviol ⊢
    rw [pyJoin_singleton] at hsplit
    exact ⟨w, hsplit, rfl, hviol⟩

/-- Witness for C10 at the concrete input `alpha beta`, which wraps to the
single two-word line `alpha beta`. -/
theorem C10_wrap_text_width_budget_witness :
    (2 ≤ (pySplit "alpha beta").length →
      (("alpha beta" : String).length : ℚ) * 12 * 0.6 ≤ 400) ∧
    (¬ (("alpha beta" : String).length : ℚ) * 12 * 0.6 ≤ 400 →
      ∃ w, pySplit "alpha beta" = [w] ∧ "alpha beta" = w ∧
        ¬ (w.length : ℚ) * 12 * 0.6 ≤ 400) :=
  C10_wrap_text_width_budget "alpha beta" 400 "DancingScript-Regular" 12
    "alpha beta" (by
      have c1 : ((pyJoin ([] ++ ["alpha"])).length : ℚ) * 12 * 0.6 ≤ 400 := by
        rw [show (pyJoin ([] ++ ["alpha"])).length = 5 from rfl]
        norm_num
      have c2 : ((pyJoin (([] ++ ["alpha"]) ++ ["beta"])).length : ℚ) * 12 * 0.6 ≤ 400 := by
        rw [show (pyJoin (([] ++ ["alpha"]) ++ ["beta"])).length = 10 from rfl]
        norm_num
      have e1 : wrap_text "alpha beta" 400 "DancingScript-Regular" 12 =
          if ((pyJoin ([] ++ ["alpha"])).length : ℚ) * 12 * 0.6 ≤ 400 then
            wrap_text_go 400 12 ([] ++ ["alpha"]) ["beta"]
          else if ([] : List String).isEmpty then
            wrap_text_go 400 12 ["alpha"] ["beta"]
          else pyJoin ([] : List String) :: wrap_text_go 400 12 ["alpha"] ["beta"] := rfl
      have e2 : wrap_text_go 400 12 ([] ++ ["alpha"]) ["beta"] =
          if ((pyJoin (([] ++ ["alpha"]) ++ ["beta"])).length : ℚ) * 12 * 0.6 ≤ 400 then
            wrap_text_go 400 12 (([] ++ ["alpha"]) ++ ["beta"]) []
          else if ([] ++ ["alpha"] : List String).isEmpty then
            wrap_text_go 400 12 ["beta"] []
          else pyJoin ([] ++ ["alpha"]) :: wrap_text_go 400 12 ["beta"] [] := rfl
      have e3 : wrap_text_go 400 12 (([] ++ ["alpha"]) ++ ["beta"]) [] =
          ["alpha beta"] := rfl
      rw [e1, if_pos c1, e2, if_pos c2, e3]
      exact List.mem_singleton.2 rfl)

/-! ### Quote rotation (`WISDOM_QUOTES` / `DiaryGenerator.get_unique_quote`) -/

/-- The `WISDOM_QUOTES` list of `enhanced_diary.py` (apostrophes written as
the escape `\x27`). -/
def WISDOM_QUOTES : List String := [
  "The journey of a thousand miles begins with one step. - Lao Tzu",
  "In the middle of difficulty lies opportunity. - Albert Einstein",
  "Life is what happens when you\x27re busy making other plans. - John Lennon",
  "The only way to do great work is to love what you do. - Steve Jobs",
  "Success is not final, failure is not fatal: it is the courage to continue that counts. - Winston Churchill",
  "Be yourself; everyone else is already taken. - Oscar Wilde",
  "The future belongs to those who believe in the beauty of their dreams. - Eleanor Roosevelt",
  "It is during our darkest moments that we must focus to see the light. - Aristotle",
  "The best time to plant a tree was 20 years ago. The second best time is now. - Chinese Proverb",
  "Your time is limited, don\x27t waste it living someone else\x27s life. - Steve Jobs",
  "The only impossible journey is the one you never begin. - Tony Robbins",
  "In the end, we will remember not the words of our enemies, but the silence of our friends. - Martin Luther King Jr.",
  "The greatest glory in living lies not in never falling, but in rising every time we fall. - Nelson Mandela",
  "The way to get started is to quit talking and begin doing. - Walt Disney",
  "Life is really simple, but we insist on making it complicated. - Confucius",
  "May you live in interesting times. - Ancient Curse",
  "The only true wisdom is in knowing you know nothing. - Socrates",
  "Yesterday is history, tomorrow is a mystery, today is a gift. - Eleanor Roosevelt",
  "Do not go where the path may lead, go instead where there is no path and leave a trail. - Ralph Waldo Emerson",
  "Believe you can and you\x27re halfway there. - Theodore Roosevelt",
  "The mind is everything. What you think you become. - Buddha",
  "A person who never made a mistake never tried anything new. - Albert Einstein",
  "Happiness is not something ready made. It comes from your own actions. - Dalai Lama",
  "The purpose of our lives is to be happy. - Dalai Lama",
  "Life is 10% what happens to you and 90% how you react to it. - Charles R. Swindoll",
  "The only way out is through. - Robert Frost",
  "What lies behind us and what lies before us are tiny matters compared to what lies within us. - Ralph Waldo Emerson",
  "You miss 100% of the shots you don\x27t take. - Wayne Gretzky",
  "Whether you think you can or you think you can\x27t, you\x27re right. - Henry Ford",
  "The best revenge is massive success. - Frank Sinatra",
  "Do something today that your future self will thank you for. - Sean Patrick Flanery",
  "The secret of change is to focus all of your energy on building the new, not fighting the old. - Socrates",
  "The most difficult thing is the decision to act, the rest is merely tenacity. - Amelia Earhart",
  "Every moment is a fresh beginning. - T.S. Eliot",
  "You are never too old to set another goal or to dream a new dream. - C.S. Lewis",
  "Success is walking from failure to failure with no loss of enthusiasm. - Winston Churchill",
  "The difference between ordinary and extraordinary is that little extra. - Jimmy Johnson",
  "Don\x27t count the days, make the days count. - Muhammad Ali",
  "If you want to live a happy life, tie it to a goal, not to people or things. - Albert Einstein",
  "Everything you\x27ve ever wanted is on the other side of fear. - George Addair"]

theorem wisdom_quotes_nodup : WISDOM_QUOTES.Nodup := by decide

/-- Model of `DiaryGenerator.get_unique_quote`, with `random.choice(available_quotes)`
modelled by an arbitrary choice value `choice` picking the element at index
`choice % len(available_quotes)` (every element is reachable).  The Python
set `self.quotes_used` is modelled as a duplicate-free list; `set.clear()`
followed by `add(quote)` yields `[quote]`, and `add` of a fresh element
appends it. -/
def get_unique_quote (quotes_used : List String) (choice : ℕ) : String × List String :=
  let available_quotes := WISDOM_QUOTES.filter fun q => !(quotes_used.contains q)
  if available_quotes.isEmpty then
    let quote := WISDOM_QUOTES.getD (choice % WISDOM_QUOTES.length) ""
    (quote, [quote])
  else
    let quote := available_quotes.getD (choice % available_quotes.length) ""
    (quote, quotes_used ++ [quote])

/-- Repeated calls to `get_unique_quote`, one per choice value, starting from
used-set `used`: the emitted quotes in order, and the final used-set. -/
def run_quotes : List ℕ → List String → List String × List String
  | [], used => ([], used)
  | k :: ks, used =>
    let step := get_unique_quote used k
    let rest := run_quotes ks step.2
    (step.1 :: rest.1, rest.2)

theorem get_unique_quote_no_reset {used : List String} (k : ℕ)
    (hproper : ∃ q ∈ WISDOM_QUOTES, q ∉ used) :
    (get_unique_quote used k).1 ∈ WISDOM_QUOTES ∧
    (get_unique_quote used k).1 ∉ used ∧
    (get_unique_quote used k).2 = used ++ [(get_unique_quote used k).1] := by
  obtain ⟨q0, hq0, hq0u⟩ := hproper
  have hne : (WISDOM_QUOTES.filter fun q => !(used.contains q)) ≠ [] := by
    intro hnil
    rw [List.filter_eq_nil_iff] at hnil
    exact hnil q0 hq0 (by simpa using hq0u)
  have hemp : ¬ ((WISDOM_QUOTES.filter fun q => !(used.contains q)).isEmpty = true) := by
    simpa [List.isEmpty_iff] using hne
  have hlen : 0 < (WISDOM_QUOTES.filter fun q => !(used.contains q)).length :=
    List.length_pos.2 hne
  have hstep : get_unique_quote used k =
      ((WISDOM_QUOTES.filter fun q => !(used.contains q)).getD
          (k % (WISDOM_QUOTES.filter fun q => !(used.contains q)).length) "",
        used ++ [(WISDOM_QUOTES.filter fun q => !(used.contains q)).getD
          (k % (WISDOM_QUOTES.filter fun q => !(used.contains q)).length) ""]) := by
    unfold get_unique_quote
    rw [if_neg hemp]
  have hmem : (get_unique_quote used k).1 ∈
      WISDOM_QUOTES.filter fun q => !(used.contains q) := by
    rw [hstep]
    rw [List.getD_eq_getElem _ _ (Nat.mod_lt _ hlen)]
    exact List.getElem_mem _
  rw [List.mem_filter] at hmem
  refine ⟨hmem.1, by simpa using hmem.2, ?_⟩
  rw [hstep]

theorem run_quotes_invariant : ∀ (ks : List ℕ) (used : List String),
    used.Nodup → (∀ q ∈ used, q ∈ WISDOM_QUOTES) →
    used.length + ks.length ≤ WISDOM_QUOTES.length →
    (run_quotes ks used).2 = used ++ (run_quotes ks used).1 ∧
    (run_quotes ks used).1.Nodup ∧
    (∀ q ∈ (run_quotes ks used).1, q ∈ WISDOM_QUOTES ∧ q ∉ used) ∧
    (run_quotes ks used).2.Nodup ∧
    (∀ q ∈ (run_quotes ks used).2, q ∈ WISDOM_QUOTES) ∧
    (run_quotes ks used).2.length = used.length + ks.length := by
  intro ks
  induction ks with
  | nil =>
    intro used hnd hsub _
    refine ⟨by simp [run_quotes], by simp [run_quotes], by simp [run_quotes],
      by simpa [run_quotes] using hnd, by simpa [run_quotes] using hsub,
      by simp [run_quotes]⟩
  | cons k ks ih =>
    intro used hnd hsub hlen
    have hproper : ∃ q ∈ WISDOM_QUOTES, q ∉ used := by
      by_contra hall
      push_neg at hall
      have hge : WISDOM_QUOTES.length ≤ used.length :=
        (List.subperm_of_subset wisdom_quotes_nodup hall).length_le
      have hx : used.length + (ks.length + 1) ≤ WISDOM_QUOTES.length := by
        simpa [List.length_cons] using hlen
      omega
    obtain ⟨hq_mem, hq_new, hq_used⟩ := get_unique_quote_no_reset k hproper
    have hnd' : (used ++ [(get_unique_quote used k).1]).Nodup := by
      rw [List.nodup_append]
      refine ⟨hnd, List.nodup_singleton _, ?_⟩
      rw [List.disjoint_left]
      intro a ha ha'
      rw [List.mem_singleton] at ha'
      subst ha'
      exact hq_new ha
    have hsub' : ∀ q ∈ used ++ [(get_unique_quote used k).1], q ∈ WISDOM_QUOTES := by
      intro q hq
      rcases List.mem_append.1 hq with h | h
      · exact hsub q h
      · rw [List.mem_singleton] at h
        subst h
        exact hq_mem
    have hlen' : (used ++ [(get_unique_quote used k).1]).length + ks.length ≤
        WISDOM_QUOTES.length := by
      have hx : used.length + (ks.length + 1) ≤ WISDOM_QUOTES.length := by
        simpa [List.length_cons] using hlen
      simp only [List.length_append, List.length_singleton]
      omega
    have hrun : run_quotes (k :: ks) used =
        ((get_unique_quote used k).1 :: (run_quotes ks (get_unique_quote used k).2).1,
          (run_quotes ks (get_unique_quote used k).2).2) := rfl
    rw [hrun, hq_used]
    have hrest := ih (used ++ [(get_unique_quote used k).1]) hnd' hsub' hlen'
    refine ⟨?_, ?_, ?_, hrest.2.2.2.1, hrest.2.2.2.2.1, ?_⟩
    · rw [hrest.1]
      simp
    · rw [List.nodup_cons]
      refine ⟨fun hmem => ?_, hrest.2.1⟩
      exact (hrest.2.2.1 _ hmem).2 (by simp)
    · intro q hq
      rcases List.mem_cons.1 hq with rfl | hq'
      · exact ⟨hq_mem, hq_new⟩
      · have h := hrest.2.2.1 q hq'
        refine ⟨h.1, fun hu => h.2 ?_⟩
        exact List.mem_append_left _ hu
    · have hr := hrest.2.2.2.2.2
      simp only [List.length_append, List.length_singleton, List.length_cons,
        List.length_nil] at hr ⊢
      omega

/-- C8: Starting from an empty used-set, for every sequence of `N` random
choices (`N` = length of the quote list), the `N` emitted quotes are pairwise
distinct, the used-set then equals the full quote list as a set, and on any
(N+1)-th call the used-set is cleared first — afterwards it holds exactly the
newly returned quote — and the returned quote repeats one of the first `N`
outputs. -/
theorem C8_quote_rotation (choices : List ℕ)
    (hlen : choices.length = WISDOM_QUOTES.length) :
    (run_quotes choices []).1.Nodup ∧
    (∀ q, q ∈ (run_quotes choices []).2 ↔ q ∈ WISDOM_QUOTES) ∧
    (∀ k, (get_unique_quote (run_quotes choices []).2 k).2 =
      [(get_unique_quote (run_quotes choices []).2 k).1]) ∧
    (∀ k, (get_unique_quote (run_quotes choices []).2 k).1 ∈
      (run_quotes choices []).1) := by
  have hinv := run_quotes_invariant choices [] (by simp) (by simp) (by simp [hlen])
  have hcover : ∀ q, q ∈ (run_quotes choices []).2 ↔ q ∈ WISDOM_QUOTES := by
    intro q
    constructor
    · exact fun h => hinv.2.2.2.2.1 q h
    · intro hq
      have hsp : (run_quotes choices []).2.Subperm WISDOM_QUOTES :=
        List.subperm_of_subset hinv.2.2.2.1 fun a ha => hinv.2.2.2.2.1 a ha
      have hperm := hsp.perm_of_length_le (by rw [hinv.2.2.2.2.2]; simp [hlen])
      exact hperm.mem_iff.2 hq
  have hfull : (WISDOM_QUOTES.filter fun q =>
      !((run_quotes choices []).2.contains q)) = [] := by
    rw [List.filter_eq_nil_iff]
    intro a ha
    simp [(hcover a).2 ha]
  have hstep : ∀ k, get_unique_quote (run_quotes choices []).2 k =
      (WISDOM_QUOTES.getD (k % WISDOM_QUOTES.length) "",
        [WISDOM_QUOTES.getD (k % WISDOM_QUOTES.length) ""]) := by
    intro k
    unfold get_unique_quote
    rw [hfull]
    rfl
  refine ⟨hinv.2.1, hcover, fun k => by rw [hstep k], fun k => ?_⟩
  have hmem : WISDOM_QUOTES.getD (k % WISDOM_QUOTES.length) "" ∈ WISDOM_QUOTES := by
    rw [List.getD_eq_getElem _ _ (Nat.mod_lt _ (by simp [WISDOM_QUOTES]))]
    exact List.getElem_mem _
  rw [hstep k]
  have houts : (run_quotes choices []).2 = (run_quotes choices []).1 := by
    simpa using hinv.1
  rw [← houts]
  exact (hcover _).2 hmem

/-- Witness for C8 with the all-zero choice sequence of length `N = 40`. -/
theorem C8_quote_rotation_witness :
    (run_quotes (List.replicate 40 0) []).1.Nodup ∧
    (∀ q, q ∈ (run_quotes (List.replicate 40 0) []).2 ↔ q ∈ WISDOM_QUOTES) ∧
    (∀ k, (get_unique_quote (run_quotes (List.replicate 40 0) []).2 k).2 =
      [(get_unique_quote (run_quotes (List.replicate 40 0) []).2 k).1]) ∧
    (∀ k, (get_unique_quote (run_quotes (List.replicate 40 0) []).2 k).1 ∈
      (run_quotes (List.replicate 40 0) []).1) :=
  C8_quote_rotation (List.replicate 40 0) (by simp [WISDOM_QUOTES])

/-! ### Password acquisition (`src/PasswordManager.py`) -/

/-- One interactive input event: a line entered at a `getpass`/`input` prompt,
or a keyboard interrupt (Ctrl-C). -/
inductive PwInput
  | entry (s : String)
  | cancel
deriving DecidableEq, Repr

/-- Python `str.strip()` with no argument (ASCII whitespace). -/
def pyStrip (s : String) : String :=
  ⟨((s.data.dropWhile fun c => isPySpace c).reverse.dropWhile fun c =>
      isPySpace c).reverse⟩

/-- Python `str.lower()` on ASCII letters. -/
def pyLower (s : String) : String :=
  ⟨s.data.map fun c =>
    if 'A' ≤ c ∧ c ≤ 'Z' then Char.ofNat (c.toNat + 32) else c⟩

/-- The retry loop of `PasswordManager.get_password`: `fuel` is the number of
remaining attempts (`max_attempts - attempts`).  Reading from an exhausted
input stream raises a generic exception, which the source catches and counts
as a failed attempt; a `cancel` raises `KeyboardInterrupt`, which the source
turns into an immediate `ValueError`.  The outcome is returned together with
the unconsumed input. -/
def get_password_loop (min_length : ℕ) :
    ℕ → List PwInput → Except String String × List PwInput
  | 0, ins => (.error "Failed to get valid password after max attempts", ins)
  | fuel + 1, ins =>
    match ins with
    | [] => get_password_loop min_length fuel []
    | .cancel :: rest => (.error "Password entry cancelled", rest)
    | .entry password :: rest =>
      if password.length < min_length then
        get_password_loop min_length fuel rest
      else if pyStrip password = "" then
        get_password_loop min_length fuel rest
      else
        match rest with
        | [] => get_password_loop min_length fuel []
        | .cancel :: rest2 => (.error "Password entry cancelled", rest2)
        | .entry confirm_password :: rest2 =>
          if password = confirm_password then (.ok password, rest2)
          else get_password_loop min_length fuel rest2

/-- Model of `PasswordManager.get_password(min_length=4, max_attempts=3)`, with the
defaults passed explicitly at every call site. -/
def get_password (min_length max_attempts : ℕ) (ins : List PwInput) :
    Except String String × List PwInput :=
  get_password_loop min_length max_attempts ins

/-- Characters counted as special by `validate_password_strength`
(braces written as the escapes `\x7b` and `\x7d`). -/
def specialChars : String := "!@#$%^&*()_+-=[]\x7b\x7d|;:,.<>?"

/-- The common patterns rejected by `validate_password_strength`. -/
def common_patterns : List String := ["123", "abc", "password", "qwerty", "111", "000"]

/-- Substring test: Python `sub in s` on character lists. -/
def hasSub (sub : List Char) : List Char → Bool
  | [] => sub.isEmpty
  | c :: rest => sub.isPrefixOf (c :: rest) || hasSub sub rest

/-- Model of `PasswordManager.validate_password_strength(password)`: the strength flag
and the feedback list (feedback text kept without the emoji prefixes;
character classes are the ASCII ones). -/
def validate_password_strength (password : String) : Bool × List String :=
  let fb1 : List String :=
    if password.length < 8 then
      ["Consider using at least 8 characters for better security"]
    else []
  let strong1 : Bool := !(password.length < 6)
  let has_upper := password.data.any fun c => 'A' ≤ c && c ≤ 'Z'
  let has_lower := password.data.any fun c => 'a' ≤ c && c ≤ 'z'
  let has_digit := password.data.any fun c => '0' ≤ c && c ≤ '9'
  let has_special := password.data.any fun c => specialChars.data.contains c
  let char_types := (cond has_upper 1 0) + (cond has_lower 1 0) +
    (cond has_digit 1 0) + (cond has_special 1 0)
  let fb2 :=
    if char_types < 2 then fb1 ++ ["Consider mixing letters, numbers, and symbols"]
    else if char_types < 3 then
      fb1 ++ ["Good! Consider adding more character variety for extra security"]
    else fb1
  let strong2 := strong1 && !(decide (char_types < 2))
  let has_pattern := common_patterns.any fun pat => hasSub pat.data (pyLower password).data
  let fb3 :=
    if has_pattern then
      fb2 ++ ["Avoid common patterns like \x27123\x27, \x27abc\x27, or \x27password\x27"]
    else fb2
  let strong3 := strong2 && !has_pattern
  (strong3, fb3)

/-- Outcome of the `Continue with this password? (y/n/r for retry)` loop in
`get_password_with_strength_check`. -/
inductive ChoiceOutcome
  | accept
  | retry
  | abort (e : String)
deriving DecidableEq, Repr

/-- The inner choice loop of `get_password_with_strength_check`: reads lines
until one of `y`/`yes` (keep the password), `n`/`no`/`r`/`retry` (go back and
ask for a new password); end of input raises `EOFError` and Ctrl-C raises
`KeyboardInterrupt`, both uncaught here. -/
def choice_loop : List PwInput → ChoiceOutcome × List PwInput
  | [] => (.abort "EOFError", [])
  | .cancel :: rest => (.abort "KeyboardInterrupt", rest)
  | .entry s :: rest =>
    let choice := pyStrip (pyLower s)
    if choice = "y" ∨ choice = "yes" then (.accept, rest)
    else if choice = "n" ∨ choice = "no" ∨ choice = "r" ∨ choice = "retry" then
      (.retry, rest)
    else choice_loop rest

theorem get_password_loop_rest_le (min_length : ℕ) :
    ∀ (fuel : ℕ) (ins : List PwInput),
      (get_password_loop min_length fuel ins).2.length ≤ ins.length := by
  intro fuel
  induction fuel with
  | zero => intro ins; exact le_rfl
  | succ f ih =>
    intro ins
    match ins with
    | [] => exact ih []
    | .cancel :: rest => exact Nat.le_succ _
    | .entry password :: rest =>
      by_cases h1 : password.length < min_length
      · calc (get_password_loop min_length (f + 1) (.entry password :: rest)).2.length
            = (get_password_loop min_length f rest).2.length := by
              simp [get_password_loop, h1]
          _ ≤ rest.length := ih rest
          _ ≤ (PwInput.entry password :: rest).length := Nat.le_succ _
      · by_cases h2 : pyStrip password = ""
        · calc (get_password_loop min_length (f + 1) (.entry password :: rest)).2.length
              = (get_password_loop min_length f rest).2.length := by
                simp [get_password_loop, h1, h2]
            _ ≤ rest.length := ih rest
            _ ≤ (PwInput.entry password :: rest).length := Nat.le_succ _
        · match rest with
          | [] =>
            calc (get_password_loop min_length (f + 1) [.entry password]).2.length
                = (get_password_loop min_length f []).2.length := by
                  simp [get_password_loop, h1, h2]
              _ ≤ ([] : List PwInput).length := ih []
              _ ≤ [PwInput.entry password].length := by simp
          | .cancel :: rest2 =>
            have : (get_password_loop min_length (f + 1)
                (.entry password :: .cancel :: rest2)).2 = rest2 := by
              simp [get_password_loop, h1, h2]
            rw [this]
            simp only [List.length_cons]
            omega
          | .entry confirm :: rest2 =>
            by_cases h3 : password = confirm
            · subst h3
              have : (get_password_loop min_length (f + 1)
                  (.entry password :: .entry password :: rest2)).2 = rest2 := by
                simp [get_password_loop, h1, h2]
              rw [this]
              simp only [List.length_cons]
              omega
            · calc (get_password_loop min_length (f + 1)
                    (.entry password :: .entry confirm :: rest2)).2.length
                  = (get_password_loop min_length f rest2).2.length := by
                    simp [get_password_loop, h1, h2, h3]
                _ ≤ rest2.length := ih rest2
                _ ≤ (PwInput.entry password :: PwInput.entry confirm :: rest2).length := by
                    simp only [List.length_cons]
                    omega

theorem get_password_loop_ok (min_length : ℕ) :
    ∀ (fuel : ℕ) (ins : List PwInput) {p : String} {rest : List PwInput},
      get_password_loop min_length fuel ins = (.ok p, rest) →
      min_length ≤ p.length ∧ pyStrip p ≠ "" ∧ PwInput.entry p ∈ ins ∧
      rest.length + 2 ≤ ins.length := by
  intro fuel
  induction fuel with
  | zero =>
    intro ins p rest h
    simp [get_password_loop] at h
  | succ f ih =>
    intro ins p rest h
    match ins with
    | [] =>
      have h' : get_password_loop min_length f [] = (.ok p, rest) := h
      have := (ih [] h').2.2.2
      simp at this
    | .cancel :: restIn =>
      simp [get_password_loop] at h
    | .entry password :: restIn =>
      by_cases h1 : password.length < min_length
      · have h' : get_password_loop min_length f restIn = (.ok p, rest) := by
          rw [show get_password_loop min_length (f + 1) (.entry password :: restIn) =
            get_password_loop min_length f restIn by simp [get_password_loop, h1]] at h
          exact h
        obtain ⟨a, b, c, d⟩ := ih restIn h'
        exact ⟨a, b, List.mem_cons_of_mem _ c, by simp only [List.length_cons]; omega⟩
      · by_cases h2 : pyStrip password = ""
        · have h' : get_password_loop min_length f restIn = (.ok p, rest) := by
            rw [show get_password_loop min_length (f + 1) (.entry password :: restIn) =
              get_password_loop min_length f restIn by simp [get_password_loop, h1, h2]] at h
            exact h
          obtain ⟨a, b, c, d⟩ := ih restIn h'
          exact ⟨a, b, List.mem_cons_of_mem _ c, by simp only [List.length_cons]; omega⟩
        · match restIn with
          | [] =>
            have h' : get_password_loop min_length f [] = (.ok p, rest) := by
              rw [show get_password_loop min_length (f + 1) [.entry password] =
                get_password_loop min_length f [] by simp [get_password_loop, h1, h2]] at h
              exact h
            have := (ih [] h').2.2.2
            simp at this
          | .cancel :: rest2 =>
            rw [show get_password_loop min_length (f + 1)
                (.entry password :: .cancel :: rest2) =
              (.error "Password entry cancelled", rest2) by
                simp [get_password_loop, h1, h2]] at h
            simp at h
          | .entry confirm :: rest2 =>
            by_cases h3 : password = confirm
            · subst h3
              rw [show get_password_loop min_length (f + 1)
                  (.entry password :: .entry password :: rest2) =
                (.ok password, rest2) by simp [get_password_loop, h1, h2]] at h
              rw [Prod.mk.injEq] at h
              obtain ⟨hok, hrest⟩ := h
              have hp : password = p := by
                simpa using hok
              subst hp
              subst hrest
              refine ⟨by omega, h2, List.mem_cons_self _ _, ?_⟩
              simp only [List.length_cons]
              omega
            · have h' : get_password_loop min_length f rest2 = (.ok p, rest) := by
                rw [show get_password_loop min_length (f + 1)
                    (.entry password :: .entry confirm :: rest2) =
                  get_password_loop min_length f rest2 by
                    simp [get_password_loop, h1, h2, h3]] at h
                exact h
              obtain ⟨a, b, c, d⟩ := ih rest2 h'
              refine ⟨a, b, List.mem_cons_of_mem _ (List.mem_cons_of_mem _ c), ?_⟩
              simp only [List.length_cons]
              omega

theorem get_password_loop_ok_pair (min_length : ℕ) :
    ∀ (fuel : ℕ) (ins : List PwInput) {p : String} {rest : List PwInput},
      get_password_loop min_length fuel ins = (.ok p, rest) →
      ∃ l1 l2, ins = l1 ++ .entry p :: .entry p :: l2 := by
  intro fuel
  induction fuel with
  | zero =>
    intro ins p rest h
    simp [get_password_loop] at h
  | succ f ih =>
    intro ins p rest h
    match ins with
    | [] =>
      have h' : get_password_loop min_length f [] = (.ok p, rest) := h
      obtain ⟨l1, l2, he⟩ := ih [] h'
      exact absurd he (by cases l1 <;> simp)
    | .cancel :: restIn =>
      simp [get_password_loop] at h
    | .entry password :: restIn =>
      by_cases h1 : password.length < min_length
      · have h' : get_password_loop min_length f restIn = (.ok p, rest) := by
          rw [show get_password_loop min_length (f + 1) (.entry password :: restIn) =
            get_password_loop min_length f restIn by simp [get_password_loop, h1]] at h
          exact h
        obtain ⟨l1, l2, he⟩ := ih restIn h'
        exact ⟨.entry password :: l1, l2, by simp [he]⟩
      · by_cases h2 : pyStrip password = ""
        · have h' : get_password_loop min_length f restIn = (.ok p, rest) := by
            rw [show get_password_loop min_length (f + 1) (.entry password :: restIn) =
              get_password_loop min_length f restIn by simp [get_password_loop, h1, h2]] at h
            exact h
          obtain ⟨l1, l2, he⟩ := ih restIn h'
          exact ⟨.entry password :: l1, l2, by simp [he]⟩
        · match restIn with
          | [] =>
            have h' : get_password_loop min_length f [] = (.ok p, rest) := by
              rw [show get_password_loop min_length (f + 1) [.entry password] =
                get_password_loop min_length f [] by simp [get_password_loop, h1, h2]] at h
              exact h
            obtain ⟨l1, l2, he⟩ := ih [] h'
            exact absurd he (by cases l1 <;> simp)
          | .cancel :: rest2 =>
            rw [show get_password_loop min_length (f + 1)
                (.entry password :: .cancel :: rest2) =
              (.error "Password entry cancelled", rest2) by
                simp [get_password_loop, h1, h2]] at h
            simp at h
          | .entry confirm :: rest2 =>
            by_cases h3 : password = confirm
            · subst h3
              rw [show get_password_loop min_length (f + 1)
                  (.entry password :: .entry password :: rest2) =
                (.ok password, rest2) by simp [get_password_loop, h1, h2]] at h
              rw [Prod.mk.injEq] at h
              have hp : password = p := by simpa using h.1
              subst hp
              exact ⟨[], rest2, rfl⟩
            · have h' : get_password_loop min_length f rest2 = (.ok p, rest) := by
                rw [show get_password_loop min_length (f + 1)
                    (.entry password :: .entry confirm :: rest2) =
                  get_password_loop min_length f rest2 by
                    simp [get_password_loop, h1, h2, h3]] at h
                exact h
              obtain ⟨l1, l2, he⟩ := ih rest2 h'
              exact ⟨.entry password :: .entry confirm :: l1, l2, by simp [he]⟩

theorem get_password_loop_budget (min_length : ℕ) :
    ∀ (fuel : ℕ) (ins : List PwInput),
      ins.length ≤ (get_password_loop min_length fuel ins).2.length + 2 * fuel := by
  intro fuel
  induction fuel with
  | zero => intro ins; simp [get_password_loop]
  | succ f ih =>
    intro ins
    match ins with
    | [] => simp
    | .cancel :: restIn =>
      rw [show get_password_loop min_length (f + 1) (.cancel :: restIn) =
        (.error "Password entry cancelled", restIn) from rfl]
      simp only [List.length_cons]
      omega
    | .entry password :: restIn =>
      by_cases h1 : password.length < min_length
      · rw [show get_password_loop min_length (f + 1) (.entry password :: restIn) =
          get_password_loop min_length f restIn by simp [get_password_loop, h1]]
        have := ih restIn
        simp only [List.length_cons]
        omega
      · by_cases h2 : pyStrip password = ""
        · rw [show get_password_loop min_length (f + 1) (.entry password :: restIn) =
            get_password_loop min_length f restIn by simp [get_password_loop, h1, h2]]
          have := ih restIn
          simp only [List.length_cons]
          omega
        · match restIn with
          | [] =>
            rw [show get_password_loop min_length (f + 1) [.entry password] =
              get_password_loop min_length f [] by simp [get_password_loop, h1, h2]]
            simp only [List.length_cons, List.length_nil]
            omega
          | .cancel :: rest2 =>
            rw [show get_password_loop min_length (f + 1)
                (.entry password :: .cancel :: rest2) =
              (.error "Password entry cancelled", rest2) by
                simp [get_password_loop, h1, h2]]
            simp only [List.length_cons]
            omega
          | .entry confirm :: rest2 =>
            by_cases h3 : password = confirm
            · subst h3
              rw [show get_password_loop min_length (f + 1)
                  (.entry password :: .entry password :: rest2) =
                (.ok password, rest2) by simp [get_password_loop, h1, h2]]
              simp only [List.length_cons]
              omega
            · rw [show get_password_loop min_length (f + 1)
                  (.entry password :: .entry confirm :: rest2) =
                get_password_loop min_length f rest2 by
                  simp [get_password_loop, h1, h2, h3]]
              have := ih rest2
              simp only [List.length_cons]
              omega

theorem choice_loop_retry_lt :
    ∀ ins : List PwInput, (choice_loop ins).1 = .retry →
      (choice_loop ins).2.length < ins.length := by
  intro ins
  induction ins with
  | nil => intro h; simp [choice_loop] at h
  | cons i rest ih =>
    intro h
    match i with
    | .cancel => simp [choice_loop] at h
    | .entry s =>
      by_cases hy : pyStrip (pyLower s) = "y" ∨ pyStrip (pyLower s) = "yes"
      · rw [show choice_loop (.entry s :: rest) = (.accept, rest) by
          simp [choice_loop, hy]] at h
        simp at h
      · by_cases hn : pyStrip (pyLower s) = "n" ∨ pyStrip (pyLower s) = "no" ∨
            pyStrip (pyLower s) = "r" ∨ pyStrip (pyLower s) = "retry"
        · rw [show choice_loop (.entry s :: rest) = (.retry, rest) by
            simp [choice_loop, hy, hn]]
          simp
        · rw [show choice_loop (.entry s :: rest) = choice_loop rest by
            simp [choice_loop, hy, hn]] at h ⊢
          have := ih h
          simp only [List.length_cons]
          omega

/-- Model of `PasswordManager.get_password_with_strength_check()`: repeatedly call
`get_password()` (defaults `min_length=4`, `max_attempts=3`); a strong
password is returned at once, otherwise the choice loop may accept the weak
password (`y`), or send the user back for a new one (`n`/`r`), or abort.  A
`ValueError` from `get_password` propagates out unchanged. -/
def get_password_with_strength_check (ins : List PwInput) :
    Except String String × List PwInput :=
  match h : get_password 4 3 ins with
  | (.error e, rest) => (.error e, rest)
  | (.ok password, rest) =>
    if (validate_password_strength password).1 then (.ok password, rest)
    else
      match h2 : choice_loop rest with
      | (.accept, rest2) => (.ok password, rest2)
      | (.abort e, rest2) => (.error e, rest2)
      | (.retry, rest2) => get_password_with_strength_check rest2
termination_by ins.length
decreasing_by
  have hok := (get_password_loop_ok 4 3 ins h).2.2.2
  have hretry : (choice_loop rest).1 = ChoiceOutcome.retry := by rw [h2]
  have hlt := choice_loop_retry_lt rest hretry
  have hr2 : (choice_loop rest).2 = rest2 := by rw [h2]
  rw [hr2] at hlt
  omega

theorem strength_check_error {ins rest : List PwInput} {e : String}
    (h : get_password 4 3 ins = (.error e, rest)) :
    get_password_with_strength_check ins = (.error e, rest) := by
  rw [get_password_with_strength_check, h]

theorem strength_check_ok_valid :
    ∀ (n : ℕ) (ins : List PwInput) (p : String) (rest : List PwInput),
      ins.length ≤ n →
      get_password_with_strength_check ins = (.ok p, rest) →
      4 ≤ p.length ∧ pyStrip p ≠ "" := by
  intro n
  induction n with
  | zero =>
    intro ins p rest hle h
    have hins : ins = [] := by
      cases ins with
      | nil => rfl
      | cons a b => simp at hle
    subst hins
    rw [get_password_with_strength_check,
      show get_password 4 3 [] =
        (Except.error "Failed to get valid password after max attempts",
          ([] : List PwInput)) from rfl] at h
    simp at h
  | succ k ih =>
    intro ins p rest hle h
    rw [get_password_with_strength_check] at h
    split at h
    · simp at h
    · rename_i password r heq
      by_cases hs : (validate_password_strength password).1
      · rw [if_pos hs, Prod.mk.injEq] at h
        have hp : password = p := by simpa using h.1
        subst hp
        have hv := get_password_loop_ok 4 3 ins heq
        exact ⟨hv.1, hv.2.1⟩
      · rw [if_neg hs] at h
        split at h
        · rename_i rest2 heq2
          rw [Prod.mk.injEq] at h
          have hp : password = p := by simpa using h.1
          subst hp
          have hv := get_password_loop_ok 4 3 ins heq
          exact ⟨hv.1, hv.2.1⟩
        · simp at h
        · rename_i rest2 heq2
          have hlt1 := (get_password_loop_ok 4 3 ins heq).2.2.2
          have hretry : (choice_loop r).1 = ChoiceOutcome.retry := by rw [heq2]
          have hlt2 := choice_loop_retry_lt r hretry
          have hr2 : (choice_loop r).2 = rest2 := by rw [heq2]
          rw [hr2] at hlt2
          exact ih rest2 p rest (by omega) h

/-- Model of `reportlab.lib.pdfencrypt.StandardEncryption`, reduced to the fields the
repository sets. -/
structure StandardEncryption where
  userPassword : String
  canPrint : ℕ
  canModify : ℕ
  canCopy : ℕ
  canAnnotate : ℕ
deriving DecidableEq, Repr

/-- Model of `PDFSecurity.create_encryption`. -/
def create_encryption (password : String)
    (allow_printing allow_copying allow_modification allow_annotation : Bool) :
    StandardEncryption :=
  ⟨password,
    if allow_printing then 1 else 0,
    if allow_modification then 1 else 0,
    if allow_copying then 1 else 0,
    if allow_annotation then 1 else 0⟩

/-- Model of `PDFSecurity.create_high_security_encryption`. -/
def create_high_security_encryption (password : String) : StandardEncryption :=
  create_encryption password true false false true

/-- Model of `get_secure_password_for_diary()`: strength-checked password acquisition,
then the high-security encryption object. -/
def get_secure_password_for_diary (ins : List PwInput) :
    Except String StandardEncryption × List PwInput :=
  match get_password_with_strength_check ins with
  | (.error e, rest) => (.error e, rest)
  | (.ok password, rest) => (.ok (create_high_security_encryption password), rest)

/-- The `main()` pipeline of `enhanced_diary.py`, restricted to its observable
outcome: year validation, then credential acquisition, then the page build.
`none` models an aborted run in which no diary is produced. -/
def main_model (year : ℕ) (ins : List PwInput) : Option (List PageModel) :=
  if year < 1900 ∨ 2100 < year then none
  else
    match get_secure_password_for_diary ins with
    | (.error _, _) => none
    | (.ok _, _) => some (generate_diary_pages year)

/-- C9: Credential errors cause bounded retries and then terminal failure.
With interactive input modelled as a sequence of entered strings: a password
returned by `get_password` satisfies the validation rules (length at least
`min_length`, not empty or whitespace-only) and was entered and then
confirmed by an equal, immediately following entry; whenever every attempt
fails validation — too short, whitespace-only, or confirmation mismatch,
i.e. the input stream contains no consecutive pair of equal entries forming
a valid password — the call ends in the terminal `ValueError` within its
fixed attempt budget; a keyboard interrupt at any password or confirmation
prompt, with any number of attempts remaining, fails immediately with the
cancellation `ValueError`; the loop consumes at most `2 * max_attempts`
inputs; an acquisition failure means `main` produces no diary; and a
produced diary implies acquisition succeeded with a validated password. -/
theorem C9_password_bounded_retries_then_failure
    (min_length max_attempts : ℕ) (ins : List PwInput)
    (year : ℕ) (pages : List PageModel) :
    (∀ p r, get_password min_length max_attempts ins = (.ok p, r) →
      min_length ≤ p.length ∧ pyStrip p ≠ "" ∧
      ∃ l1 l2, ins = l1 ++ .entry p :: .entry p :: l2) ∧
    ((∀ l1 p l2, ins = l1 ++ .entry p :: .entry p :: l2 →
        p.length < min_length ∨ pyStrip p = "") →
      ∃ e, (get_password min_length max_attempts ins).1 = Except.error e) ∧
    (∀ attempts_left rest2, 0 < attempts_left →
      get_password min_length attempts_left (PwInput.cancel :: rest2) =
        (.error "Password entry cancelled", rest2)) ∧
    (∀ attempts_left p rest2, min_length ≤ p.length → pyStrip p ≠ "" →
      get_password min_length (attempts_left + 1)
          (PwInput.entry p :: PwInput.cancel :: rest2) =
        (.error "Password entry cancelled", rest2)) ∧
    (ins.length ≤ (get_password min_length max_attempts ins).2.length +
      2 * max_attempts) ∧
    (∀ e r2, get_secure_password_for_diary ins = (.error e, r2) →
      main_model year ins = none) ∧
    (main_model year ins = some pages →
      ∃ enc r2, get_secure_password_for_diary ins = (.ok enc, r2) ∧
        4 ≤ enc.userPassword.length ∧ pyStrip enc.userPassword ≠ "") := by
  refine ⟨?_, ?_, ?_, ?_, get_password_loop_budget min_length max_attempts ins,
    ?_, ?_⟩
  · intro p r h
    have hv := get_password_loop_ok min_length max_attempts ins h
    have hpair := get_password_loop_ok_pair min_length max_attempts ins h
    exact ⟨hv.1, hv.2.1, hpair⟩
  · intro hall
    cases hres : (get_password min_length max_attempts ins).1 with
    | error e => exact ⟨e, rfl⟩
    | ok q =>
      exfalso
      have heq : get_password min_length max_attempts ins =
          (.ok q, (get_password min_length max_attempts ins).2) := by
        rw [Prod.ext_iff]
        exact ⟨hres, rfl⟩
      have hv := get_password_loop_ok min_length max_attempts ins heq
      obtain ⟨l1, l2, he⟩ := get_password_loop_ok_pair min_length max_attempts ins heq
      rcases hall l1 q l2 he with hshort | hempty
      · have := hv.1
        omega
      · exact hv.2.1 hempty
  · intro attempts_left rest2 hpos
    match attempts_left, hpos with
    | f + 1, _ => rfl
  · intro attempts_left p rest2 h1 h2
    have hlt : ¬ p.length < min_length := by omega
    simp [get_password, get_password_loop, hlt, h2]
  · intro e r2 hsec
    unfold main_model
    by_cases hy : year < 1900 ∨ 2100 < year
    · rw [if_pos hy]
    · rw [if_neg hy, hsec]
  · intro hmain
    unfold main_model at hmain
    by_cases hy : year < 1900 ∨ 2100 < year
    · rw [if_pos hy] at hmain
      simp at hmain
    · rw [if_neg hy] at hmain
      rcases hsec : get_secure_password_for_diary ins with ⟨res, r⟩
      cases res with
      | error e =>
        rw [hsec] at hmain
        simp at hmain
      | ok enc =>
        have hsec0 := hsec
        unfold get_secure_password_for_diary at hsec
        split at hsec
        · simp at hsec
        · rename_i password r' heq2
          rw [Prod.mk.injEq] at hsec
          have henc : create_high_security_encryption password = enc := by
            simpa using hsec.1
          have hv := strength_check_ok_valid ins.length ins password r' le_rfl heq2
          refine ⟨enc, r, rfl, ?_, ?_⟩
          · rw [← henc]
            exact hv.1
          · rw [← henc]
            exact hv.2

/-- Witness for C9 at a concrete input whose run succeeds end to end: the
strong password `Zq7wPt` entered and confirmed, for the 2024 build, so the
produced-diary conjunct has a true antecedent. -/
theorem C9_password_bounded_retries_then_failure_witness :
    (∀ p r, get_password 4 3 [PwInput.entry "Zq7wPt", PwInput.entry "Zq7wPt"] =
        (.ok p, r) →
      4 ≤ p.length ∧ pyStrip p ≠ "" ∧
      ∃ l1 l2, [PwInput.entry "Zq7wPt", PwInput.entry "Zq7wPt"] =
        l1 ++ .entry p :: .entry p :: l2) ∧
    ((∀ l1 p l2, [PwInput.entry "Zq7wPt", PwInput.entry "Zq7wPt"] =
        l1 ++ .entry p :: .entry p :: l2 →
        p.length < 4 ∨ pyStrip p = "") →
      ∃ e, (get_password 4 3 [PwInput.entry "Zq7wPt", PwInput.entry "Zq7wPt"]).1 =
        Except.error e) ∧
    (∀ attempts_left rest2, 0 < attempts_left →
      get_password 4 attempts_left (PwInput.cancel :: rest2) =
        (.error "Password entry cancelled", rest2)) ∧
    (∀ attempts_left p rest2, 4 ≤ p.length → pyStrip p ≠ "" →
      get_password 4 (attempts_left + 1)
          (PwInput.entry p :: PwInput.cancel :: rest2) =
        (.error "Password entry cancelled", rest2)) ∧
    ([PwInput.entry "Zq7wPt", PwInput.entry "Zq7wPt"].length ≤
      (get_password 4 3 [PwInput.entry "Zq7wPt", PwInput.entry "Zq7wPt"]).2.length +
        2 * 3) ∧
    (∀ e r2, get_secure_password_for_diary
        [PwInput.entry "Zq7wPt", PwInput.entry "Zq7wPt"] = (.error e, r2) →
      main_model 2024 [PwInput.entry "Zq7wPt", PwInput.entry "Zq7wPt"] = none) ∧
    (main_model 2024 [PwInput.entry "Zq7wPt", PwInput.entry "Zq7wPt"] =
        some (generate_diary_pages 2024) →
      ∃ enc r2, get_secure_password_for_diary
          [PwInput.entry "Zq7wPt", PwInput.entry "Zq7wPt"] = (.ok enc, r2) ∧
        4 ≤ enc.userPassword.length ∧ pyStrip enc.userPassword ≠ "") :=
  C9_password_bounded_retries_then_failure 4 3
    [PwInput.entry "Zq7wPt", PwInput.entry "Zq7wPt"] 2024
    (generate_diary_pages 2024)
